import Mathlib

/-!
Shallow embedding of the `My-Container` repository (namespace `ex4` in the
C++ source): a generic ordered container `MyContainer<T>` over a
`std::vector<T>` with six snapshot-based traversal iterators
(insertion `Order`, `ReverseOrder`, `AscendingOrder`, `DescendingOrder`,
`SideCrossOrder`, `MiddleOutOrder`).

The element type is instantiated at `Int` (the container's default
`T = int`); all container and iterator operations are translated from
`src/MyContainer.hpp` and `src/Iterators/*.hpp`.
-/

/-- Element type: the container's default template argument is `int`. -/
abbrev Elem := Int

/-- `MyContainer` (src/MyContainer.hpp): the underlying storage `data`
preserves insertion order. -/
structure MyContainer where
  data : List Elem
deriving DecidableEq

/-- `MyContainer::addElement`: `data.push_back(value)`. -/
def addElement (c : MyContainer) (v : Elem) : MyContainer :=
  ⟨c.data ++ [v]⟩

/-- `MyContainer::size`: `data.size()`. -/
def size (c : MyContainer) : Nat := c.data.length

/-- Outcome of `MyContainer::removeElement`: the container state after the
call together with whether the `std::runtime_error` was thrown.  (The C++
code erases first and throws afterwards, so the post-throw state is the
post-erase vector.) -/
structure RemoveResult where
  container : MyContainer
  threw : Bool
deriving DecidableEq

/-- `MyContainer::removeElement`: erase-remove of every element equal to
`value` (`std::remove` keeps exactly the elements not equal to `value`,
in order), then throw iff the size is unchanged. -/
def removeElement (c : MyContainer) (v : Elem) : RemoveResult :=
  let d := c.data.filter (fun x => x ≠ v)
  ⟨⟨d⟩, decide (d.length = c.data.length)⟩

/-- `MyContainer::print` (called by `operator<<`): writes each element
followed by a single space `' '`, then `std::endl`.  The output stream is
modelled as the string `os` accumulated so far. -/
def printStream (data : List Elem) (os : String) : String :=
  (data.foldl (fun acc e => acc ++ toString e ++ " ") os) ++ "\n"

/-- The text produced by streaming the container into an empty stream. -/
def render (c : MyContainer) : String := printStream c.data ""

/-- Spec-side rendering (§4.1 `render()`): every element's text
representation, "each followed by a single space, then a newline". -/
def renderSpec (c : MyContainer) : String :=
  (c.data.map (fun e => toString e ++ " ")).foldr (fun a b => a ++ b) "\n"

/-! ## Traversal views

Each of the six iterator classes builds, in its static `make`, a private
vector `view` from `c.getData()` and returns the pair
`{Iter(view, 0), Iter(view, view.size())}`.  The view computations follow.

`std::sort` is an unstable comparison sort, but its observable output on a
vector of `int` is the unique `≤`-sorted (resp. `≥`-sorted) permutation of
the input, so any sorting algorithm is an extensionally faithful embedding
of it; we use `List.insertionSort`, whose output is proved below to be
that unique sorted permutation (`sortAsc_unique`). -/

/-- Output of `std::sort(v.begin(), v.end())` on `Int` values. -/
def sortAsc (l : List Elem) : List Elem :=
  List.insertionSort (fun a b => a ≤ b) l

/-- Output of `std::sort(v.begin(), v.end(), std::greater<T>())` on `Int`
values (sorted non-increasing; `std::greater` is the strict order, but the
produced value sequence is the unique `≥`-sorted permutation either way). -/
def sortDesc (l : List Elem) : List Elem :=
  List.insertionSort (· ≥ ·) l

/-- `Order::make` view: the data in insertion order. -/
def orderView (l : List Elem) : List Elem := l

/-- `ReverseOrder::make` view: `std::reverse` of the data. -/
def reverseView (l : List Elem) : List Elem := l.reverse

/-- `AscendingOrder::make` view: the data sorted ascending. -/
def ascendingView (l : List Elem) : List Elem := sortAsc l

/-- `DescendingOrder::make` view: the data sorted by `std::greater`. -/
def descendingView (l : List Elem) : List Elem := sortDesc l

/-- The loop of `SideCrossOrder::make`: two cursors `i` (low) and `j`
(high) into the sorted vector, alternately pushing `sorted[i++]` and
`sorted[j--]` while `i <= j`, starting with the low side.

The C++ `while` loop pushes exactly one element per iteration and each
iteration moves one cursor inward, so from the initial state
`i = 0, j = n-1` it runs exactly `n` iterations; the recursion is given
that iteration count as structural `fuel` (lemma `sideCrossLoop_spec`
shows the result is the same for every sufficient fuel, so the fueled
function agrees with the unbounded loop). -/
def sideCrossLoop (fuel : Nat) (sorted : List Elem) (i j : Nat)
    (low : Bool) : List Elem :=
  match fuel with
  | 0 => []
  | fuel + 1 =>
    if i ≤ j then
      if low then
        sorted.getD i 0 :: sideCrossLoop fuel sorted (i + 1) j false
      else
        sorted.getD j 0 :: sideCrossLoop fuel sorted i (j - 1) true
    else []

/-- `SideCrossOrder::make` view: sort ascending, then run the alternating
two-cursor loop (`i = 0`, `j = size - 1`, `take_low = true`); the loop is
skipped when the vector is empty. -/
def sideCrossView (l : List Elem) : List Elem :=
  let sorted := sortAsc l
  if sorted.isEmpty then []
  else sideCrossLoop sorted.length sorted 0 (sorted.length - 1) true

/-! ### MiddleOutOrder -/

/-- Loop state of `MiddleOutOrder::make`: the accumulated sequence `seq`,
the two `long` cursors `left` and `right`, and the `take_left` flag. -/
structure MOState where
  seq : List Elem
  left : Int
  right : Int
  takeLeft : Bool
deriving DecidableEq

/-- First half of one `MiddleOutOrder::make` loop iteration: push from the
left if `take_left && left >= 0`, else push from the right if
`!take_left && right < n`, else push nothing. -/
def moPush (base : List Elem) (st : MOState) : MOState :=
  if st.takeLeft = true ∧ 0 ≤ st.left then
    ⟨st.seq ++ [base.getD st.left.toNat 0], st.left - 1, st.right, st.takeLeft⟩
  else if st.takeLeft = false ∧ st.right < (base.length : Int) then
    ⟨st.seq ++ [base.getD st.right.toNat 0], st.left, st.right + 1, st.takeLeft⟩
  else st

/-- Second half of one loop iteration: the `take_left` update, read from
the post-push cursors (`left < 0` → only right remains; `right >= n` →
only left remains; otherwise alternate). -/
def moFlag (base : List Elem) (st : MOState) : MOState :=
  if st.left < 0 then ⟨st.seq, st.left, st.right, false⟩
  else if (base.length : Int) ≤ st.right then ⟨st.seq, st.left, st.right, true⟩
  else ⟨st.seq, st.left, st.right, !st.takeLeft⟩

/-- One full iteration of the `while (seq.size() < n)` loop body. -/
def moStep (base : List Elem) (st : MOState) : MOState :=
  moFlag base (moPush base st)

/-- The `while (seq.size() < n)` loop, with an explicit iteration budget
`fuel` (the loop itself is unbounded; `moRun_length` below shows that
`2 * n` iterations always reach `seq.size() = n`, after which the state is
unchanged, so the fueled run with fuel `2 * n` is the loop's result). -/
def moRun (base : List Elem) : Nat → MOState → MOState
  | 0, st => st
  | fuel + 1, st =>
    if st.seq.length < base.length then moRun base fuel (moStep base st)
    else st

/-- State on entry to the loop: `mid = (n - 1) / 2` (lower middle),
`left = mid - 1`, `right = mid + 1`, `seq = [base[mid]]`,
`take_left = true`.  (Only reached when `n ≥ 1`.) -/
def moInit (base : List Elem) : MOState :=
  let mid : Int := ((base.length - 1) / 2 : Nat)
  ⟨[base.getD mid.toNat 0], mid - 1, mid + 1, true⟩

/-- `MiddleOutOrder::make` view: empty input short-circuits to the empty
sequence; otherwise run the loop from `moInit`. -/
def middleOutView (base : List Elem) : List Elem :=
  if base.length = 0 then []
  else (moRun base (2 * base.length) (moInit base)).seq

/-! ## The snapshot iterator

The six iterator classes are field-for-field and operator-for-operator
identical (a value-owned `std::vector<T> view` plus a `std::size_t idx`;
`operator*`/`operator->` via `view.at(idx)`, prefix/postfix `operator++`,
`operator==` comparing `idx` and `view`); they differ only in how `make`
builds `view`.  We embed the shared shape once, indexed by the traversal
kind. -/

/-- The six traversal kinds. -/
inductive Kind
  | insertion
  | reverseK
  | ascending
  | descending
  | sideCross
  | middleOut
deriving DecidableEq

/-- The view built by each kind's `make` from the container data. -/
def viewOf : Kind → List Elem → List Elem
  | .insertion => orderView
  | .reverseK => reverseView
  | .ascending => ascendingView
  | .descending => descendingView
  | .sideCross => sideCrossView
  | .middleOut => middleOutView

/-- The common iterator shape: owned view plus cursor. -/
structure Iter where
  view : List Elem
  idx : Nat
deriving DecidableEq

/-- Each `make` factory: `{ Iter(view, 0), Iter(view, view.size()) }`. -/
def Iter.make (k : Kind) (c : MyContainer) : Iter × Iter :=
  let v := viewOf k c.data
  (⟨v, 0⟩, ⟨v, v.length⟩)

/-- Error thrown by `std::vector::at` on an invalid index. -/
inductive AtError
  | outOfRange
deriving DecidableEq

/-- `operator*`: `view.at(idx)` — the element at the cursor, or
`std::out_of_range` when `idx` is not a valid position. -/
def Iter.deref (it : Iter) : Except AtError Elem :=
  if h : it.idx < it.view.length then .ok (it.view.get ⟨it.idx, h⟩)
  else .error .outOfRange

/-- Prefix `operator++`: `++idx` (no bound check). -/
def Iter.inc (it : Iter) : Iter := ⟨it.view, it.idx + 1⟩

/-- Postfix `operator++`: returns the saved pre-increment state together
with the advanced iterator. -/
def Iter.incPost (it : Iter) : Iter × Iter := (it, it.inc)

/-- `n` successive prefix increments. -/
def Iter.incN (it : Iter) : Nat → Iter
  | 0 => it
  | n + 1 => it.inc.incN n

/-- `operator==`: same cursor and same view contents. -/
def Iter.eqIter (a b : Iter) : Prop := a.idx = b.idx ∧ a.view = b.view

instance (a b : Iter) : Decidable (a.eqIter b) := by
  unfold Iter.eqIter; infer_instance

/-! ## Mutation sessions (for the iterator/mutation frame property)

A session holds the live container together with every iterator pair
taken so far.  `addElement` and `removeElement` touch only the `data`
vector, and each pair owns value copies of its view, so a mutation step
leaves the pairs component untouched. -/

/-- A mutating container operation. -/
inductive Op
  | add (v : Elem)
  | remove (v : Elem)

/-- Effect of one operation on the container (for `remove`, the state
after the call whether or not it threw). -/
def applyOp (c : MyContainer) : Op → MyContainer
  | .add v => addElement c v
  | .remove v => (removeElement c v).container

/-- Effect of a sequence of operations. -/
def applyOps (c : MyContainer) (ops : List Op) : MyContainer :=
  ops.foldl applyOp c

/-- A container plus the iterator pairs already handed out. -/
structure Session where
  container : MyContainer
  pairs : List (Kind × Iter × Iter)

/-- Take a begin/end pair from the live container and record it. -/
def Session.takePair (s : Session) (k : Kind) : Session :=
  ⟨s.container, s.pairs ++ [(k, Iter.make k s.container)]⟩

/-- Mutate the live container; iterator pairs hold their own copies. -/
def Session.step (s : Session) (o : Op) : Session :=
  ⟨applyOp s.container o, s.pairs⟩

/-- Run a sequence of mutations on the session. -/
def Session.run (s : Session) (ops : List Op) : Session :=
  ops.foldl Session.step s

/-! ## Spec-side descriptions

These definitions follow the specification's wording, to be compared with
the view builders translated from the source. -/

/-- Spec-side side-cross order on an already sorted list: alternately take
from the low end and the high end, low first, until the list is exhausted
(the middle element of an odd-length list is taken on a "low" turn). -/
def scAlt : Bool → List Elem → List Elem
  | _, [] => []
  | true, a :: rest => a :: scAlt false rest
  | false, a :: rest => (a :: rest).getLastD 0 :: scAlt true (a :: rest).dropLast
termination_by _b l => l.length
decreasing_by
  all_goals simp [List.length_dropLast]

/-- Spec-side SideCross: sort ascending, then alternate low/high. -/
def sideCrossSpec (l : List Elem) : List Elem := scAlt true (sortAsc l)

/-- Alternating interleave, first list first; once one side is exhausted
the rest of the other side follows in order. -/
def interleaveLH : List Elem → List Elem → List Elem
  | [], ys => ys
  | x :: xs, ys => x :: interleaveLH ys xs
termination_by xs ys => xs.length + ys.length
decreasing_by
  simp
  omega

/-- Spec-side MiddleOut: start at index `(n - 1) / 2` of the insertion
order, then alternate one step left, one step right, beginning with a
left step; exhausted sides are skipped. -/
def middleOutSpec (base : List Elem) : List Elem :=
  if base.length = 0 then []
  else
    let mid := (base.length - 1) / 2
    base.getD mid 0 :: interleaveLH ((base.take mid).reverse) (base.drop (mid + 1))

/-! ## MiddleOut: loop invariant and correspondence with the spec -/

/-- Elements still to be consumed on the left of the start position, in
the order the loop will emit them (`base[left], base[left-1], ..., base[0]`). -/
def remLeft (base : List Elem) (st : MOState) : List Elem :=
  (base.take (st.left + 1).toNat).reverse

/-- Elements still to be consumed on the right, in emission order. -/
def remRight (base : List Elem) (st : MOState) : List Elem :=
  base.drop st.right.toNat

/-- What the loop will append to `seq` from state `st` onward: the
remaining sides interleaved, starting with the side the flag selects. -/
def moMix (base : List Elem) (st : MOState) : List Elem :=
  match st.takeLeft with
  | true => interleaveLH (remLeft base st) (remRight base st)
  | false => interleaveLH (remRight base st) (remLeft base st)

/-- Loop invariant of `MiddleOutOrder::make`: cursor bounds, the count of
emitted elements, and — the delicate part — whenever the flag points right
with work left to do, some side selected by the flag update can make
progress (rules out the state `take_left = false`, `left < 0`,
`right ≥ n`, which would self-loop, but is unreachable while
`seq.size() < n`). -/
def moInv (base : List Elem) (st : MOState) : Prop :=
  -1 ≤ st.left ∧ st.left < (base.length : Int) ∧
  1 ≤ st.right ∧ st.right ≤ (base.length : Int) ∧
  (st.seq.length : Int) = st.right - st.left - 1 ∧
  (st.takeLeft = false → st.seq.length < base.length →
    0 ≤ st.left ∨ st.right < (base.length : Int))

/-- 1 when the next iteration will push nothing (flag pointing at an
exhausted side), else 0. -/
def moPen (base : List Elem) (st : MOState) : Nat :=
  match st.takeLeft with
  | true => if st.left < 0 then 1 else 0
  | false => if (base.length : Int) ≤ st.right then 1 else 0

/-- Termination potential: strictly decreases at every loop iteration. -/
def moPot (base : List Elem) (st : MOState) : Nat :=
  2 * (base.length - st.seq.length) + moPen base st

/-- The canonical stable sort by `<=` (core `List.mergeSort` is a stable
merge sort), following the spec's "stable sort by `<`". -/
def stableSortAsc (l : List Elem) : List Elem :=
  l.mergeSort (fun a b => decide (a ≤ b))

/-- The canonical stable sort by `>=`, following the spec's
"stable sort by `>`". -/
def stableSortDesc (l : List Elem) : List Elem :=
  l.mergeSort (fun a b => decide (a ≥ b))

/-! ## List index helpers -/

theorem take_getD_concat :
    ∀ (l : List Elem) (m : Nat), m < l.length →
      l.take (m + 1) = l.take m ++ [l.getD m 0] := by
  intro l
  induction l with
  | nil => intro m h; simp at h
  | cons a t ih =>
    intro m h
    cases m with
    | zero => simp
    | succ m =>
      have := ih m (by simpa using h)
      simp only [List.take_succ_cons, List.getD_cons_succ, this]
      simp

theorem drop_getD_cons :
    ∀ (l : List Elem) (m : Nat), m < l.length →
      l.drop m = l.getD m 0 :: l.drop (m + 1) := by
  intro l
  induction l with
  | nil => intro m h; simp at h
  | cons a t ih =>
    intro m h
    cases m with
    | zero => simp
    | succ m =>
      have := ih m (by simpa using h)
      simp only [List.drop_succ_cons, List.getD_cons_succ]
      exact this

theorem drop_getD (i : Nat) :
    ∀ (l : List Elem) (m : Nat), (l.drop i).getD m 0 = l.getD (i + m) 0 := by
  induction i with
  | zero => intro l m; simp
  | succ i ih =>
    intro l m
    cases l with
    | nil => simp
    | cons a t =>
      have h := ih t m
      rw [List.drop_succ_cons, h]
      have he : i + 1 + m = (i + m) + 1 := by omega
      rw [he, List.getD_cons_succ]

/-! ## SideCross: the two-cursor loop realises the spec-side alternation -/

theorem scAlt_nil (b : Bool) : scAlt b [] = [] := by
  cases b <;> simp [scAlt]

theorem scAlt_cons_true (a : Elem) (rest : List Elem) :
    scAlt true (a :: rest) = a :: scAlt false rest := by
  simp [scAlt]

theorem scAlt_cons_false (a : Elem) (rest : List Elem) :
    scAlt false (a :: rest)
      = (a :: rest).getLastD 0 :: scAlt true (a :: rest).dropLast := by
  simp [scAlt]

theorem scAlt_concat_false (ys : List Elem) (y : Elem) :
    scAlt false (ys ++ [y]) = y :: scAlt true ys := by
  cases ys with
  | nil => simp [scAlt]
  | cons a t =>
    rw [List.cons_append, scAlt_cons_false, ← List.cons_append,
      List.getLastD_concat, List.dropLast_concat]

theorem sideCrossLoop_spec :
    ∀ (f : Nat) (s : List Elem) (i j : Nat) (low : Bool),
      j + 1 - i ≤ f → j < s.length → (low = false → i ≤ j → 1 ≤ j) →
      sideCrossLoop f s i j low = scAlt low ((s.drop i).take (j + 1 - i)) := by
  intro f
  induction f with
  | zero =>
    intro s i j low hf _ _
    have h0 : j + 1 - i = 0 := by omega
    simp [sideCrossLoop, h0, scAlt_nil]
  | succ f ih =>
    intro s i j low hf hj hlow
    by_cases hij : i ≤ j
    · have hi : i < s.length := by omega
      cases low with
      | true =>
        have hslice : (s.drop i).take (j + 1 - i)
            = s.getD i 0 :: (s.drop (i + 1)).take (j - i) := by
          rw [drop_getD_cons s i hi]
          have he : j + 1 - i = (j - i) + 1 := by omega
          rw [he, List.take_succ_cons]
        have hstep : sideCrossLoop (f + 1) s i j true
            = s.getD i 0 :: sideCrossLoop f s (i + 1) j false := by
          simp [sideCrossLoop, hij]
        rw [hstep]
        rw [ih s (i + 1) j false (by omega) hj (by intro _ h; omega)]
        rw [hslice, scAlt_cons_true]
        have he2 : j + 1 - (i + 1) = j - i := by omega
        rw [he2]
      | false =>
        have hj1 : 1 ≤ j := hlow rfl hij
        have hmlen : j - i < (s.drop i).length := by
          rw [List.length_drop]; omega
        have hconcat : (s.drop i).take (j + 1 - i)
            = (s.drop i).take (j - i) ++ [s.getD j 0] := by
          have h1 : j + 1 - i = (j - i) + 1 := by omega
          rw [h1, take_getD_concat (s.drop i) (j - i) hmlen, drop_getD]
          have h2 : i + (j - i) = j := by omega
          rw [h2]
        have hstep : sideCrossLoop (f + 1) s i j false
            = s.getD j 0 :: sideCrossLoop f s i (j - 1) true := by
          simp [sideCrossLoop, hij]
        rw [hstep]
        rw [ih s i (j - 1) true (by omega) (by omega) (by simp)]
        rw [hconcat, scAlt_concat_false]
        have he3 : j - 1 + 1 - i = j - i := by omega
        rw [he3]
    · have h0 : j + 1 - i = 0 := by omega
      rw [sideCrossLoop]
      simp [if_neg hij, h0, scAlt_nil]

theorem scAlt_perm_aux :
    ∀ (n : Nat) (b : Bool) (l : List Elem), l.length ≤ n →
      (scAlt b l).Perm l := by
  intro n
  induction n with
  | zero =>
    intro b l h
    have hl : l = [] := by
      rw [← List.length_eq_zero]
      omega
    subst hl
    simp [scAlt_nil]
  | succ n ih =>
    intro b l h
    cases b with
    | true =>
      cases l with
      | nil => simp [scAlt_nil]
      | cons a rest =>
        rw [scAlt_cons_true]
        exact (ih false rest (by simp at h; omega)).cons a
    | false =>
      rcases List.eq_nil_or_concat l with rfl | ⟨ys, y, hl⟩
      · simp [scAlt_nil]
      · subst hl
        rw [List.concat_eq_append, scAlt_concat_false]
        have hy : ys.length ≤ n := by simp at h; omega
        have h1 : (y :: scAlt true ys).Perm (y :: ys) := (ih true ys hy).cons y
        exact h1.trans (List.perm_append_singleton y ys).symm

theorem scAlt_perm (b : Bool) (l : List Elem) : (scAlt b l).Perm l :=
  scAlt_perm_aux l.length b l (Nat.le_refl _)

/-! ## interleaveLH basic lemmas -/

theorem interleaveLH_nil_left (ys : List Elem) : interleaveLH [] ys = ys := by
  simp [interleaveLH]

theorem interleaveLH_cons (x : Elem) (xs ys : List Elem) :
    interleaveLH (x :: xs) ys = x :: interleaveLH ys xs := by
  simp [interleaveLH]

theorem interleaveLH_nil_right (xs : List Elem) : interleaveLH xs [] = xs := by
  cases xs with
  | nil => simp [interleaveLH]
  | cons x t => rw [interleaveLH_cons, interleaveLH_nil_left]

theorem interleaveLH_length_aux :
    ∀ (n : Nat) (xs ys : List Elem), xs.length + ys.length ≤ n →
      (interleaveLH xs ys).length = xs.length + ys.length := by
  intro n
  induction n with
  | zero =>
    intro xs ys h
    have hx : xs = [] := by rw [← List.length_eq_zero]; omega
    have hy : ys = [] := by rw [← List.length_eq_zero]; omega
    subst hx; subst hy
    simp [interleaveLH_nil_left]
  | succ n ih =>
    intro xs ys h
    cases xs with
    | nil => simp [interleaveLH_nil_left]
    | cons x t =>
      rw [interleaveLH_cons]
      have h1 := ih ys t (by simp at h; omega)
      simp only [List.length_cons, h1]
      omega

theorem interleaveLH_length (xs ys : List Elem) :
    (interleaveLH xs ys).length = xs.length + ys.length :=
  interleaveLH_length_aux (xs.length + ys.length) xs ys (Nat.le_refl _)

theorem interleaveLH_perm_aux :
    ∀ (n : Nat) (xs ys : List Elem), xs.length + ys.length ≤ n →
      (interleaveLH xs ys).Perm (xs ++ ys) := by
  intro n
  induction n with
  | zero =>
    intro xs ys h
    have hx : xs = [] := by rw [← List.length_eq_zero]; omega
    have hy : ys = [] := by rw [← List.length_eq_zero]; omega
    subst hx; subst hy
    simp [interleaveLH_nil_left]
  | succ n ih =>
    intro xs ys h
    cases xs with
    | nil => simp [interleaveLH_nil_left]
    | cons x t =>
      rw [interleaveLH_cons]
      have h1 : (interleaveLH ys t).Perm (ys ++ t) :=
        ih ys t (by simp at h; omega)
      have h2 : (x :: interleaveLH ys t).Perm (x :: (ys ++ t)) := h1.cons x
      have h3 : (x :: (ys ++ t)).Perm (x :: (t ++ ys)) :=
        (List.perm_append_comm).cons x
      exact h2.trans h3

theorem interleaveLH_perm (xs ys : List Elem) :
    (interleaveLH xs ys).Perm (xs ++ ys) :=
  interleaveLH_perm_aux (xs.length + ys.length) xs ys (Nat.le_refl _)

/-! ## MiddleOut: loop invariant lemmas -/

theorem moMix_done (base : List Elem) (st : MOState)
    (hInv : moInv base st) (hge : base.length ≤ st.seq.length) :
    moMix base st = [] := by
  obtain ⟨hl1, _, _, hr2, hlen, _⟩ := hInv
  have hleft : st.left = -1 := by omega
  have hright : st.right = (base.length : Int) := by omega
  have htn : (st.left + 1).toNat = 0 := by omega
  have hrn : base.length ≤ st.right.toNat := by omega
  have hL : remLeft base st = [] := by
    simp [remLeft, htn]
  have hR : remRight base st = [] := by
    simp [remRight, List.drop_eq_nil_of_le hrn]
  cases hb : st.takeLeft <;>
    simp [moMix, hb, hL, hR, interleaveLH_nil_left]

theorem pot_push_lt {n len pen2 : Nat} (hlt : len < n) (h2 : pen2 ≤ 1) :
    2 * (n - (len + 1)) + pen2 < 2 * (n - len) + 0 := by
  omega

theorem moStep_spec (base : List Elem) (st : MOState)
    (hInv : moInv base st) (hlt : st.seq.length < base.length) :
    moInv base (moStep base st) ∧
    moPot base (moStep base st) < moPot base st ∧
    (moStep base st).seq ++ moMix base (moStep base st)
      = st.seq ++ moMix base st := by
  obtain ⟨hl1, hl2, hr1, hr2, hlen, hflag⟩ := hInv
  cases hb : st.takeLeft with
  | true =>
    by_cases hL : 0 ≤ st.left
    · -- push from the left: seq += base[left], left -= 1
      have hLlt : st.left.toNat < base.length := by omega
      have ht1 : (st.left + 1).toNat = st.left.toNat + 1 := by omega
      have ht2 : st.left - 1 + 1 = st.left := by omega
      have hLdec : remLeft base st
          = base.getD st.left.toNat 0 :: (base.take st.left.toNat).reverse := by
        unfold remLeft
        rw [ht1, take_getD_concat base st.left.toNat hLlt, List.reverse_concat]
      have hpush : moPush base st
          = ⟨st.seq ++ [base.getD st.left.toNat 0],
             st.left - 1, st.right, true⟩ := by
        simp [moPush, hb, hL]
      have hmixSt : moMix base st = base.getD st.left.toNat 0 ::
          interleaveLH (base.drop st.right.toNat)
            ((base.take st.left.toNat).reverse) := by
        simp only [moMix, hb]
        rw [hLdec, interleaveLH_cons]
        rfl
      have hpenSt : moPen base st = 0 := by
        simp only [moPen, hb]
        rw [if_neg (by omega)]
      by_cases hneg : st.left - 1 < 0
      · -- left side now exhausted: take_left := false
        have hstep : moStep base st
            = ⟨st.seq ++ [base.getD st.left.toNat 0],
               st.left - 1, st.right, false⟩ := by
          unfold moStep
          rw [hpush]
          simp [moFlag, hneg]
        rw [hstep]
        refine ⟨⟨by dsimp only; omega, by dsimp only; omega, by dsimp only; omega,
            by dsimp only; omega, ?_, ?_⟩, ?_, ?_⟩
        · simp only [List.length_append, List.length_cons, List.length_nil]
          push_cast
          omega
        · intro _ h2
          simp only [List.length_append, List.length_cons, List.length_nil] at h2
          dsimp only
          omega
        · have hpen2 : moPen base
              (⟨st.seq ++ [base.getD st.left.toNat 0],
                st.left - 1, st.right, false⟩ : MOState) ≤ 1 := by
            simp only [moPen]
            split <;> omega
          unfold moPot
          rw [hpenSt]
          simp only [List.length_append, List.length_cons, List.length_nil]
          exact pot_push_lt hlt hpen2
        · have hmix2 : moMix base
              (⟨st.seq ++ [base.getD st.left.toNat 0],
                st.left - 1, st.right, false⟩ : MOState)
              = interleaveLH (base.drop st.right.toNat)
                  ((base.take st.left.toNat).reverse) := by
            simp only [moMix, remRight, remLeft, ht2]
          rw [hmix2, hmixSt]
          simp
      · by_cases hrn : (base.length : Int) ≤ st.right
        · -- right side exhausted: take_left := true (and nothing right remains)
          have hstep : moStep base st
              = ⟨st.seq ++ [base.getD st.left.toNat 0],
                 st.left - 1, st.right, true⟩ := by
            unfold moStep
            rw [hpush]
            simp [moFlag, hneg, hrn]
          have hRnil : base.drop st.right.toNat = [] :=
            List.drop_eq_nil_of_le (by omega)
          rw [hstep]
          refine ⟨⟨by dsimp only; omega, by dsimp only; omega, by dsimp only; omega,
            by dsimp only; omega, ?_, ?_⟩, ?_, ?_⟩
          · simp only [List.length_append, List.length_cons, List.length_nil]
            push_cast
            omega
          · intro hcon
            simp at hcon
          · have hpen2 : moPen base
                (⟨st.seq ++ [base.getD st.left.toNat 0],
                  st.left - 1, st.right, true⟩ : MOState) ≤ 1 := by
              simp only [moPen]
              split <;> omega
            unfold moPot
            rw [hpenSt]
            simp only [List.length_append, List.length_cons, List.length_nil]
            exact pot_push_lt hlt hpen2
          · have hmix2 : moMix base
                (⟨st.seq ++ [base.getD st.left.toNat 0],
                  st.left - 1, st.right, true⟩ : MOState)
                = (base.take st.left.toNat).reverse := by
              simp only [moMix, remRight, remLeft, ht2, hRnil,
                interleaveLH_nil_right]
            rw [hmix2, hmixSt, hRnil, interleaveLH_nil_left]
            simp
        · -- both sides alive: alternate, take_left := false
          have hstep : moStep base st
              = ⟨st.seq ++ [base.getD st.left.toNat 0],
                 st.left - 1, st.right, false⟩ := by
            unfold moStep
            rw [hpush]
            simp [moFlag, hneg, hrn]
          rw [hstep]
          refine ⟨⟨by dsimp only; omega, by dsimp only; omega, by dsimp only; omega,
            by dsimp only; omega, ?_, ?_⟩, ?_, ?_⟩
          · simp only [List.length_append, List.length_cons, List.length_nil]
            push_cast
            omega
          · intro _ _
            dsimp only
            omega
          · have hpen2 : moPen base
                (⟨st.seq ++ [base.getD st.left.toNat 0],
                  st.left - 1, st.right, false⟩ : MOState) ≤ 1 := by
              simp only [moPen]
              split <;> omega
            unfold moPot
            rw [hpenSt]
            simp only [List.length_append, List.length_cons, List.length_nil]
            exact pot_push_lt hlt hpen2
          · have hmix2 : moMix base
                (⟨st.seq ++ [base.getD st.left.toNat 0],
                  st.left - 1, st.right, false⟩ : MOState)
                = interleaveLH (base.drop st.right.toNat)
                    ((base.take st.left.toNat).reverse) := by
              simp only [moMix, remRight, remLeft, ht2]
            rw [hmix2, hmixSt]
            simp
    · -- empty iteration: flag pointed left but the left side is exhausted
      have hneg : st.left < 0 := by omega
      have htn : (st.left + 1).toNat = 0 := by omega
      have hLnil : remLeft base st = [] := by
        simp [remLeft, htn]
      have hpush : moPush base st = st := by
        simp [moPush, hb, hL]
      have hstep : moStep base st = ⟨st.seq, st.left, st.right, false⟩ := by
        unfold moStep
        rw [hpush]
        simp [moFlag, hneg]
      have hrlt : st.right < (base.length : Int) := by omega
      have hmixSt : moMix base st = base.drop st.right.toNat := by
        simp only [moMix, hb]
        rw [hLnil, interleaveLH_nil_left]
        rfl
      rw [hstep]
      refine ⟨⟨by dsimp only; omega, by dsimp only; omega, by dsimp only; omega,
        by dsimp only; omega, by dsimp only; omega, ?_⟩, ?_, ?_⟩
      · intro _ _
        dsimp only
        omega
      · have hpenSt : moPen base st = 1 := by
          simp only [moPen, hb]
          rw [if_pos hneg]
        have hpen2 : moPen base (⟨st.seq, st.left, st.right, false⟩ : MOState)
            = 0 := by
          simp only [moPen]
          rw [if_neg (by omega)]
        unfold moPot
        rw [hpenSt, hpen2]
        simp only [List.length_append, List.length_cons, List.length_nil]
        omega
      · have hmix2 : moMix base (⟨st.seq, st.left, st.right, false⟩ : MOState)
            = base.drop st.right.toNat := by
          simp only [moMix, remRight, remLeft, htn]
          simp [interleaveLH_nil_right]
        rw [hmix2, hmixSt]
  | false =>
    by_cases hR : st.right < (base.length : Int)
    · -- push from the right: seq += base[right], right += 1
      have hRlt : st.right.toNat < base.length := by omega
      have ht1 : (st.right + 1).toNat = st.right.toNat + 1 := by omega
      have hRdec : remRight base st
          = base.getD st.right.toNat 0 :: base.drop (st.right.toNat + 1) := by
        unfold remRight
        rw [drop_getD_cons base st.right.toNat hRlt]
      have hpush : moPush base st
          = ⟨st.seq ++ [base.getD st.right.toNat 0],
             st.left, st.right + 1, false⟩ := by
        simp [moPush, hb, hR]
      have hmixSt : moMix base st = base.getD st.right.toNat 0 ::
          interleaveLH ((base.take (st.left + 1).toNat).reverse)
            (base.drop (st.right.toNat + 1)) := by
        simp only [moMix, hb]
        rw [hRdec, interleaveLH_cons]
        rfl
      have hpenSt : moPen base st = 0 := by
        simp only [moPen, hb]
        rw [if_neg (by omega)]
      by_cases hneg : st.left < 0
      · -- left side already exhausted: take_left stays false
        have htn : (st.left + 1).toNat = 0 := by omega
        have hstep : moStep base st
            = ⟨st.seq ++ [base.getD st.right.toNat 0],
               st.left, st.right + 1, false⟩ := by
          unfold moStep
          rw [hpush]
          simp [moFlag, hneg]
        rw [hstep]
        refine ⟨⟨by dsimp only; omega, by dsimp only; omega, by dsimp only; omega,
            by dsimp only; omega, ?_, ?_⟩, ?_, ?_⟩
        · simp only [List.length_append, List.length_cons, List.length_nil]
          push_cast
          omega
        · intro _ h2
          simp only [List.length_append, List.length_cons, List.length_nil] at h2
          dsimp only
          omega
        · have hpen2 : moPen base
              (⟨st.seq ++ [base.getD st.right.toNat 0],
                st.left, st.right + 1, false⟩ : MOState) ≤ 1 := by
            simp only [moPen]
            split <;> omega
          unfold moPot
          rw [hpenSt]
          simp only [List.length_append, List.length_cons, List.length_nil]
          exact pot_push_lt hlt hpen2
        · have hmix2 : moMix base
              (⟨st.seq ++ [base.getD st.right.toNat 0],
                st.left, st.right + 1, false⟩ : MOState)
              = base.drop (st.right.toNat + 1) := by
            simp only [moMix, remRight, remLeft, ht1, htn]
            simp [interleaveLH_nil_right]
          rw [hmix2, hmixSt, htn]
          simp [interleaveLH_nil_left]
      · by_cases hrn : (base.length : Int) ≤ st.right + 1
        · -- right cursor reached the end: take_left := true
          have hstep : moStep base st
              = ⟨st.seq ++ [base.getD st.right.toNat 0],
                 st.left, st.right + 1, true⟩ := by
            unfold moStep
            rw [hpush]
            simp [moFlag, hneg, hrn]
          rw [hstep]
          refine ⟨⟨by dsimp only; omega, by dsimp only; omega, by dsimp only; omega,
              by dsimp only; omega, ?_, ?_⟩, ?_, ?_⟩
          · simp only [List.length_append, List.length_cons, List.length_nil]
            push_cast
            omega
          · intro hcon
            simp at hcon
          · have hpen2 : moPen base
                (⟨st.seq ++ [base.getD st.right.toNat 0],
                  st.left, st.right + 1, true⟩ : MOState) ≤ 1 := by
              simp only [moPen]
              split <;> omega
            unfold moPot
            rw [hpenSt]
            simp only [List.length_append, List.length_cons, List.length_nil]
            exact pot_push_lt hlt hpen2
          · have hmix2 : moMix base
                (⟨st.seq ++ [base.getD st.right.toNat 0],
                  st.left, st.right + 1, true⟩ : MOState)
                = interleaveLH ((base.take (st.left + 1).toNat).reverse)
                    (base.drop (st.right.toNat + 1)) := by
              simp only [moMix, remRight, remLeft, ht1]
            rw [hmix2, hmixSt]
            simp
        · -- both sides alive: alternate, take_left := true
          have hstep : moStep base st
              = ⟨st.seq ++ [base.getD st.right.toNat 0],
                 st.left, st.right + 1, true⟩ := by
            unfold moStep
            rw [hpush]
            simp [moFlag, hneg, hrn]
          rw [hstep]
          refine ⟨⟨by dsimp only; omega, by dsimp only; omega, by dsimp only; omega,
              by dsimp only; omega, ?_, ?_⟩, ?_, ?_⟩
          · simp only [List.length_append, List.length_cons, List.length_nil]
            push_cast
            omega
          · intro hcon
            simp at hcon
          · have hpen2 : moPen base
                (⟨st.seq ++ [base.getD st.right.toNat 0],
                  st.left, st.right + 1, true⟩ : MOState) ≤ 1 := by
              simp only [moPen]
              split <;> omega
            unfold moPot
            rw [hpenSt]
            simp only [List.length_append, List.length_cons, List.length_nil]
            exact pot_push_lt hlt hpen2
          · have hmix2 : moMix base
                (⟨st.seq ++ [base.getD st.right.toNat 0],
                  st.left, st.right + 1, true⟩ : MOState)
                = interleaveLH ((base.take (st.left + 1).toNat).reverse)
                    (base.drop (st.right.toNat + 1)) := by
              simp only [moMix, remRight, remLeft, ht1]
            rw [hmix2, hmixSt]
            simp
    · -- empty iteration: flag pointed right but the right side is exhausted
      have h0L : 0 ≤ st.left := (hflag hb hlt).resolve_right (by omega)
      have hpush : moPush base st = st := by
        simp [moPush, hb, hR]
      have hstep : moStep base st = ⟨st.seq, st.left, st.right, true⟩ := by
        unfold moStep
        rw [hpush]
        simp [moFlag, show ¬ st.left < 0 by omega,
          show (base.length : Int) ≤ st.right by omega]
      have hRnil : base.drop st.right.toNat = [] :=
        List.drop_eq_nil_of_le (by omega)
      have hmixSt : moMix base st
          = (base.take (st.left + 1).toNat).reverse := by
        simp only [moMix, hb, remRight, remLeft]
        rw [hRnil, interleaveLH_nil_left]
      rw [hstep]
      refine ⟨⟨by dsimp only; omega, by dsimp only; omega, by dsimp only; omega,
          by dsimp only; omega, by dsimp only; omega, ?_⟩, ?_, ?_⟩
      · intro hcon
        simp at hcon
      · have hpenSt : moPen base st = 1 := by
          simp only [moPen, hb]
          rw [if_pos (by omega)]
        have hpen2 : moPen base (⟨st.seq, st.left, st.right, true⟩ : MOState)
            = 0 := by
          simp only [moPen]
          rw [if_neg (by omega)]
        unfold moPot
        rw [hpenSt, hpen2]
        dsimp only
        omega
      · have hmix2 : moMix base (⟨st.seq, st.left, st.right, true⟩ : MOState)
            = (base.take (st.left + 1).toNat).reverse := by
          simp only [moMix, remRight, remLeft]
          rw [hRnil, interleaveLH_nil_right]
        rw [hmix2, hmixSt]

theorem moRun_spec (base : List Elem) :
    ∀ (f : Nat) (st : MOState), moInv base st → moPot base st ≤ f →
      (moRun base f st).seq = st.seq ++ moMix base st := by
  intro f
  induction f with
  | zero =>
    intro st hInv hpot
    have hge : base.length ≤ st.seq.length := by
      unfold moPot at hpot
      omega
    rw [moMix_done base st hInv hge]
    simp [moRun]
  | succ f ih =>
    intro st hInv hpot
    by_cases hlt : st.seq.length < base.length
    · have h3 := moStep_spec base st hInv hlt
      have hrun : moRun base (f + 1) st = moRun base f (moStep base st) := by
        simp [moRun, hlt]
      rw [hrun, ih (moStep base st) h3.1 (by have := h3.2.1; omega)]
      exact h3.2.2
    · have hge : base.length ≤ st.seq.length := by omega
      rw [moMix_done base st hInv hge]
      simp [moRun, hlt]

theorem moInv_init (base : List Elem) (h : base ≠ []) :
    moInv base (moInit base) := by
  have hn : 1 ≤ base.length := List.length_pos.mpr h
  unfold moInv moInit
  dsimp only
  refine ⟨by omega, by omega, by omega, by omega, by simp, ?_⟩
  intro hcon
  simp at hcon

theorem moPot_init (base : List Elem) (h : base ≠ []) :
    moPot base (moInit base) ≤ 2 * base.length := by
  have hn : 1 ≤ base.length := List.length_pos.mpr h
  have hpen : moPen base (moInit base) ≤ 1 := by
    unfold moPen moInit
    dsimp only
    split <;> omega
  unfold moPot
  have hlen1 : (moInit base).seq.length = 1 := by
    simp [moInit]
  omega

theorem middleOutView_eq_spec (base : List Elem) :
    middleOutView base = middleOutSpec base := by
  by_cases h : base.length = 0
  · unfold middleOutView middleOutSpec
    rw [if_pos h, if_pos h]
  · have hne : base ≠ [] := by
      intro hcon
      rw [hcon] at h
      simp at h
    have hrun := moRun_spec base (2 * base.length) (moInit base)
      (moInv_init base hne) (moPot_init base hne)
    unfold middleOutView middleOutSpec
    rw [if_neg h, if_neg h, hrun]
    have h1 : ((((base.length - 1) / 2 : Nat) : Int)).toNat
        = (base.length - 1) / 2 := by omega
    have h2 : ((((base.length - 1) / 2 : Nat) : Int) - 1 + 1).toNat
        = (base.length - 1) / 2 := by omega
    have h3 : ((((base.length - 1) / 2 : Nat) : Int) + 1).toNat
        = (base.length - 1) / 2 + 1 := by omega
    simp only [moInit, moMix, remLeft, remRight]
    rw [h1, h2, h3]
    simp

theorem moMix_length (base : List Elem) (st : MOState) (hInv : moInv base st) :
    (moMix base st).length = base.length - st.seq.length := by
  obtain ⟨hl1, hl2, hr1, hr2, hlen, _⟩ := hInv
  cases hb : st.takeLeft <;>
  · simp only [moMix, hb, remLeft, remRight, interleaveLH_length,
      List.length_reverse, List.length_take, List.length_drop]
    omega

theorem moRun_reaches (base : List Elem) (h : base ≠ []) :
    ((moRun base (2 * base.length) (moInit base)).seq).length
      = base.length := by
  have hn : 1 ≤ base.length := List.length_pos.mpr h
  rw [moRun_spec base _ _ (moInv_init base h) (moPot_init base h)]
  rw [List.length_append, moMix_length base _ (moInv_init base h)]
  have h1 : (moInit base).seq.length = 1 := by simp [moInit]
  omega

theorem middleOutView_perm (base : List Elem) :
    (middleOutView base).Perm base := by
  rw [middleOutView_eq_spec]
  unfold middleOutSpec
  by_cases h : base.length = 0
  · rw [if_pos h]
    have hb : base = [] := by
      rw [← List.length_eq_zero]
      omega
    rw [hb]
  · rw [if_neg h]
    have hmid : (base.length - 1) / 2 < base.length := by omega
    have hp1 := interleaveLH_perm
      ((base.take ((base.length - 1) / 2)).reverse)
      (base.drop ((base.length - 1) / 2 + 1))
    have hp2 : ((base.take ((base.length - 1) / 2)).reverse
          ++ base.drop ((base.length - 1) / 2 + 1)).Perm
        (base.take ((base.length - 1) / 2)
          ++ base.drop ((base.length - 1) / 2 + 1)) :=
      (List.reverse_perm _).append_right _
    have hp3 := (hp1.trans hp2).cons (base.getD ((base.length - 1) / 2) 0)
    have hp4 := hp3.trans
      (@List.perm_middle Elem (base.getD ((base.length - 1) / 2) 0)
        (base.take ((base.length - 1) / 2))
        (base.drop ((base.length - 1) / 2 + 1))).symm
    have hbase : base.take ((base.length - 1) / 2)
        ++ base.getD ((base.length - 1) / 2) 0
          :: base.drop ((base.length - 1) / 2 + 1) = base := by
      rw [← drop_getD_cons base ((base.length - 1) / 2) hmid]
      exact List.take_append_drop _ base
    rwa [hbase] at hp4

theorem sideCrossView_eq_spec (l : List Elem) :
    sideCrossView l = sideCrossSpec l := by
  by_cases h : sortAsc l = []
  · simp [sideCrossView, sideCrossSpec, h, scAlt_nil]
  · have hlen : 1 ≤ (sortAsc l).length := by
      have := List.length_pos.mpr h
      omega
    have hie : (sortAsc l).isEmpty = false := by
      simpa [List.isEmpty_iff] using h
    have hloop := sideCrossLoop_spec (sortAsc l).length (sortAsc l) 0
      ((sortAsc l).length - 1) true (by omega) (by omega) (by simp)
    have he : (sortAsc l).length - 1 + 1 - 0 = (sortAsc l).length := by omega
    rw [he, List.drop_zero, List.take_length] at hloop
    simp [sideCrossView, sideCrossSpec, hie, hloop]

/-! ## Sorting facts -/

theorem sortAsc_sorted (l : List Elem) : (sortAsc l).Sorted (· ≤ ·) :=
  List.sorted_insertionSort (fun a b => a ≤ b) l

theorem sortAsc_perm (l : List Elem) : (sortAsc l).Perm l :=
  List.perm_insertionSort (fun a b => a ≤ b) l

theorem sortDesc_sorted (l : List Elem) : (sortDesc l).Sorted (· ≥ ·) :=
  List.sorted_insertionSort (· ≥ ·) l

theorem sortDesc_perm (l : List Elem) : (sortDesc l).Perm l :=
  List.perm_insertionSort (· ≥ ·) l

theorem sortAsc_eq_stable (l : List Elem) : sortAsc l = stableSortAsc l := by
  unfold sortAsc stableSortAsc
  symm
  apply List.mergeSort_eq_insertionSort

theorem sortDesc_eq_stable (l : List Elem) : sortDesc l = stableSortDesc l := by
  unfold sortDesc stableSortDesc
  symm
  apply List.mergeSort_eq_insertionSort

theorem sortAsc_unique (l l2 : List Elem) (hp : l2.Perm l)
    (hs : l2.Sorted (· ≤ ·)) : l2 = sortAsc l :=
  List.eq_of_perm_of_sorted (hp.trans (sortAsc_perm l).symm) hs
    (sortAsc_sorted l)

theorem sortDesc_unique (l l2 : List Elem) (hp : l2.Perm l)
    (hs : l2.Sorted (· ≥ ·)) : l2 = sortDesc l :=
  List.eq_of_perm_of_sorted (hp.trans (sortDesc_perm l).symm) hs
    (sortDesc_sorted l)

/-! ## View permutation and length facts -/

theorem viewOf_perm (k : Kind) (l : List Elem) : (viewOf k l).Perm l := by
  cases k with
  | insertion => exact List.Perm.refl l
  | reverseK => exact List.reverse_perm l
  | ascending => exact sortAsc_perm l
  | descending => exact sortDesc_perm l
  | sideCross =>
    show (sideCrossView l).Perm l
    rw [sideCrossView_eq_spec]
    exact (scAlt_perm true (sortAsc l)).trans (sortAsc_perm l)
  | middleOut => exact middleOutView_perm l

theorem viewOf_length (k : Kind) (l : List Elem) :
    (viewOf k l).length = l.length :=
  (viewOf_perm k l).length_eq

/-! ## Iterator stepping -/

theorem incN_mk (v : List Elem) :
    ∀ (n i : Nat), Iter.incN ⟨v, i⟩ n = ⟨v, i + n⟩ := by
  intro n
  induction n with
  | zero => intro i; simp [Iter.incN]
  | succ n ih =>
    intro i
    have h1 : Iter.incN (⟨v, i⟩ : Iter) (n + 1)
        = Iter.incN (⟨v, i + 1⟩ : Iter) n := by
      simp [Iter.incN, Iter.inc]
    rw [h1, ih (i + 1)]
    congr 1
    omega

/-! ## Rendering -/

theorem printStream_spec :
    ∀ (l : List Elem) (os : String),
      printStream l os
        = os ++ (l.map (fun e => toString e ++ " ")).foldr
            (fun a b => a ++ b) "\n" := by
  intro l
  induction l with
  | nil => intro os; simp [printStream]
  | cons x t ih =>
    intro os
    have h1 : printStream (x :: t) os
        = printStream t (os ++ toString x ++ " ") := by
      simp [printStream]
    rw [h1, ih]
    simp [String.append_assoc]

/-! ## Claim theorems -/

/-- C1: For every snapshot, the SideCross builder produces the sequence
obtained by sorting the snapshot ascending and then alternately taking
from the low end and the high end (low first), advancing two cursors
inward until they meet or cross, with the middle element of an odd-length
input taken on a "low" turn; in particular [7,15,6,1,2] yields
[1,15,2,7,6] and [1,2,3,4] yields [1,4,2,3]. -/
theorem sideCross_follows_spec :
    (∀ c : MyContainer, sideCrossView c.data = sideCrossSpec c.data) ∧
    sideCrossView [7, 15, 6, 1, 2] = [1, 15, 2, 7, 6] ∧
    sideCrossView [1, 2, 3, 4] = [1, 4, 2, 3] :=
  ⟨fun c => sideCrossView_eq_spec c.data, by decide, by decide⟩

/-- C2: For every snapshot of size n, the MiddleOut builder starts at
index (n-1)/2 of the insertion-order sequence, then alternately steps one
position left and one position right (left first), collecting in
encounter order, consuming only the remaining side once one side is
exhausted; n = 0 and n = 1 give the trivial sequences; in particular
[7,15,6,1,2] yields [6,15,1,7,2] and [1,2,3,4] yields [2,1,3,4]. -/
theorem middleOut_follows_spec :
    (∀ c : MyContainer, middleOutView c.data = middleOutSpec c.data) ∧
    middleOutView [] = [] ∧ (∀ x : Elem, middleOutView [x] = [x]) ∧
    middleOutView [7, 15, 6, 1, 2] = [6, 15, 1, 7, 2] ∧
    middleOutView [1, 2, 3, 4] = [2, 1, 3, 4] :=
  ⟨fun c => middleOutView_eq_spec c.data, by decide,
   fun x => by rw [middleOutView_eq_spec]; simp [middleOutSpec, interleaveLH],
   by decide, by decide⟩

/-- C3: The Ascending builder produces the stable sort of the snapshot by
`<` and the Descending builder the stable sort by `>`: each output equals
the canonical stable sort, is sorted, is a permutation of the snapshot,
and is the unique such sorted permutation (so any sort — stable or not —
of the same snapshot yields exactly this sequence of values). -/
theorem sorted_views_stable :
    ∀ c : MyContainer,
      ascendingView c.data = stableSortAsc c.data ∧
      descendingView c.data = stableSortDesc c.data ∧
      (ascendingView c.data).Sorted (· ≤ ·) ∧
      (descendingView c.data).Sorted (· ≥ ·) ∧
      (ascendingView c.data).Perm c.data ∧
      (descendingView c.data).Perm c.data ∧
      (∀ l2 : List Elem, l2.Perm c.data → l2.Sorted (· ≤ ·) →
        l2 = ascendingView c.data) ∧
      (∀ l2 : List Elem, l2.Perm c.data → l2.Sorted (· ≥ ·) →
        l2 = descendingView c.data) :=
  fun c => ⟨sortAsc_eq_stable c.data, sortDesc_eq_stable c.data,
    sortAsc_sorted c.data, sortDesc_sorted c.data, sortAsc_perm c.data,
    sortDesc_perm c.data, fun l2 hp hs => sortAsc_unique c.data l2 hp hs,
    fun l2 hp hs => sortDesc_unique c.data l2 hp hs⟩

theorem sorted_views_stable_witness :
    ([1, 2] : List Elem).Perm [2, 1] ∧
    ([1, 2] : List Elem).Sorted (· ≤ ·) ∧
    [1, 2] = ascendingView [2, 1] ∧
    ([2, 1] : List Elem).Sorted (· ≥ ·) ∧
    [2, 1] = descendingView [2, 1] :=
  ⟨by decide, by decide,
    (sorted_views_stable ⟨[2, 1]⟩).2.2.2.2.2.2.1 [1, 2] (by decide) (by decide),
    by decide,
    (sorted_views_stable ⟨[2, 1]⟩).2.2.2.2.2.2.2 [2, 1] (by decide) (by decide)⟩

/-- C4: `removeElement(v)` throws NotFound iff no element equals `v`; on
throw the contents are unchanged; when some element equals `v` it
succeeds, deletes every element equal to `v` (none remain), and preserves
the relative order (sublist) and the multiplicities of the survivors. -/
theorem remove_notFound_spec :
    ∀ (c : MyContainer) (v : Elem),
      ((removeElement c v).threw = true ↔ ∀ x ∈ c.data, x ≠ v) ∧
      ((removeElement c v).threw = true → (removeElement c v).container = c) ∧
      (v ∈ c.data →
        (removeElement c v).threw = false ∧
        (∀ x ∈ (removeElement c v).container.data, x ≠ v) ∧
        (removeElement c v).container.data.Sublist c.data ∧
        ∀ x : Elem, x ≠ v →
          (removeElement c v).container.data.count x = c.data.count x) := by
  intro c v
  have hthrew : (removeElement c v).threw = true ↔
      (c.data.filter (fun x => x ≠ v)).length = c.data.length := by
    simp [removeElement]
  have hcont : (removeElement c v).container
      = ⟨c.data.filter (fun x => x ≠ v)⟩ := rfl
  have hlen_iff : ((c.data.filter (fun x => x ≠ v)).length = c.data.length)
      ↔ (c.data.filter (fun x => x ≠ v)) = c.data :=
    ⟨fun h => (List.filter_sublist c.data).eq_of_length h, fun h => by rw [h]⟩
  have hfe : ((c.data.filter (fun x => x ≠ v)) = c.data)
      ↔ (∀ x ∈ c.data, x ≠ v) := by
    rw [List.filter_eq_self]
    simp
  refine ⟨hthrew.trans (hlen_iff.trans hfe), ?_, ?_⟩
  · intro h
    rw [hcont, hlen_iff.mp (hthrew.mp h)]
  · intro hv
    have hneq : ¬ (c.data.filter (fun x => x ≠ v)).length = c.data.length := by
      intro hcon
      exact (hfe.mp (hlen_iff.mp hcon)) v hv rfl
    refine ⟨?_, ?_, ?_, ?_⟩
    · cases hb : (removeElement c v).threw
      · rfl
      · exact absurd (hthrew.mp hb) hneq
    · intro x hx
      rw [hcont] at hx
      have h2 := List.mem_filter.mp hx
      simpa using h2.2
    · rw [hcont]
      exact List.filter_sublist c.data
    · intro x hxv
      rw [hcont]
      exact List.count_filter (by simpa using hxv)

theorem remove_notFound_witness :
    (removeElement ⟨[1, 3]⟩ 2).threw = true ∧
    (removeElement ⟨[1, 3]⟩ 2).container = ⟨[1, 3]⟩ ∧
    (2 : Elem) ∈ ([1, 2, 2, 3] : List Elem) ∧
    (removeElement ⟨[1, 2, 2, 3]⟩ 2).threw = false ∧
    (removeElement ⟨[1, 2, 2, 3]⟩ 2).container.data.Sublist [1, 2, 2, 3] :=
  ⟨(remove_notFound_spec ⟨[1, 3]⟩ 2).1.mpr (by decide),
   (remove_notFound_spec ⟨[1, 3]⟩ 2).2.1
     ((remove_notFound_spec ⟨[1, 3]⟩ 2).1.mpr (by decide)),
   by decide,
   ((remove_notFound_spec ⟨[1, 2, 2, 3]⟩ 2).2.2 (by decide)).1,
   ((remove_notFound_spec ⟨[1, 2, 2, 3]⟩ 2).2.2 (by decide)).2.2.1⟩

/-- C5: For each of the six traversal kinds and every collection state,
the begin iterator equals the end iterator iff the collection is empty,
and exactly `size()` prefix advances carry begin to end. -/
theorem iterator_range_spec :
    ∀ (k : Kind) (c : MyContainer),
      ((Iter.make k c).1.eqIter (Iter.make k c).2 ↔ c.data = []) ∧
      (Iter.make k c).1.incN (size c) = (Iter.make k c).2 := by
  intro k c
  have hv := viewOf_length k c.data
  have hmk : Iter.make k c
      = (⟨viewOf k c.data, 0⟩, ⟨viewOf k c.data, (viewOf k c.data).length⟩) :=
    rfl
  rw [hmk]
  constructor
  · unfold Iter.eqIter
    dsimp only
    constructor
    · rintro ⟨h1, _⟩
      rw [← List.length_eq_zero]
      omega
    · intro h
      refine ⟨?_, rfl⟩
      rw [hv, h]
      rfl
  · dsimp only
    rw [incN_mk]
    congr 1
    rw [hv]
    simp [size]

/-- C6: Dereferencing an iterator raises OutOfBounds exactly when the
cursor is at or beyond the length of the underlying sequence; below the
length it returns the element at the cursor. -/
theorem deref_bounds_spec :
    ∀ (v : List Elem) (i : Nat),
      ((Iter.deref ⟨v, i⟩ = Except.error AtError.outOfRange) ↔ v.length ≤ i) ∧
      (i < v.length → Iter.deref ⟨v, i⟩ = Except.ok (v.getD i 0)) := by
  intro v i
  constructor
  · constructor
    · intro h
      by_cases hi : i < v.length
      · unfold Iter.deref at h
        dsimp only at h
        rw [dif_pos hi] at h
        simp at h
      · omega
    · intro h
      unfold Iter.deref
      dsimp only
      rw [dif_neg (by omega)]
  · intro h
    unfold Iter.deref
    dsimp only
    rw [dif_pos h]
    simp [List.getD_eq_getElem?_getD, List.getElem?_eq_getElem h]

theorem deref_bounds_witness :
    Iter.deref ⟨[5], 0⟩ = Except.ok 5 ∧
    Iter.deref ⟨[5], 1⟩ = Except.error AtError.outOfRange :=
  ⟨(deref_bounds_spec [5] 0).2 (by decide),
   (deref_bounds_spec [5] 1).1.mpr (by decide)⟩

/-- C7: Iterator pairs are frame-independent of later container
mutation: running any sequence of add/remove operations on a session
leaves every previously taken pair untouched (only the container
changes), and a pair is a function of the snapshot taken at construction
time only. -/
theorem iterator_frame_spec :
    ∀ (s : Session) (ops : List Op),
      (Session.run s ops).pairs = s.pairs ∧
      (Session.run s ops).container = applyOps s.container ops ∧
      (∀ (k : Kind) (c c2 : MyContainer), c.data = c2.data →
        Iter.make k c = Iter.make k c2) := by
  intro s ops
  refine ⟨?_, ?_, ?_⟩
  · induction ops generalizing s with
    | nil => rfl
    | cons o t ih => exact ih (Session.step s o)
  · induction ops generalizing s with
    | nil => rfl
    | cons o t ih => exact ih (Session.step s o)
  · intro k c c2 h
    cases c
    cases c2
    dsimp only at h
    subst h
    rfl

theorem iterator_frame_witness :
    (Session.run ⟨⟨[1]⟩, [(Kind.insertion, Iter.make Kind.insertion ⟨[1]⟩)]⟩
        [Op.add 2, Op.remove 1]).pairs
      = [(Kind.insertion, Iter.make Kind.insertion ⟨[1]⟩)] ∧
    Iter.make Kind.ascending ⟨[3]⟩ = Iter.make Kind.ascending ⟨[3]⟩ :=
  ⟨(iterator_frame_spec ⟨⟨[1]⟩,
      [(Kind.insertion, Iter.make Kind.insertion ⟨[1]⟩)]⟩
      [Op.add 2, Op.remove 1]).1,
   (iterator_frame_spec ⟨⟨[]⟩, []⟩ []).2.2 Kind.ascending ⟨[3]⟩ ⟨[3]⟩ rfl⟩

/-- C8: `render()` produces exactly each element's textual representation
in insertion order, each followed by a single space, then a newline; the
empty collection renders as "\n" alone. -/
theorem render_text_spec :
    ∀ c : MyContainer, render c = renderSpec c ∧ render ⟨[]⟩ = "\n" := by
  intro c
  constructor
  · unfold render renderSpec
    rw [printStream_spec]
    simp
  · rfl

/-- C9: Each of the six traversal builders produces a permutation of the
snapshot — same length, same multiset, nothing dropped or invented. -/
theorem traversal_is_permutation :
    ∀ (k : Kind) (c : MyContainer),
      ((viewOf k c.data).Perm c.data) ∧
      (viewOf k c.data).length = c.data.length :=
  fun k c => ⟨viewOf_perm k c.data, viewOf_length k c.data⟩

/-- C10: The middle-out construction loop terminates: starting from the
loop entry state on a nonempty input of length n, `2 * n` iterations of
the loop body always suffice to bring the built sequence to length n
(after which the loop guard `seq.size() < n` is false and the loop
exits). -/
theorem middleOut_terminates :
    ∀ base : List Elem, base ≠ [] →
      ((moRun base (2 * base.length) (moInit base)).seq).length
        = base.length :=
  fun base h => moRun_reaches base h

theorem middleOut_terminates_witness :
    ([1, 2] : List Elem) ≠ [] ∧
    ((moRun [1, 2] (2 * ([1, 2] : List Elem).length)
        (moInit [1, 2])).seq).length = ([1, 2] : List Elem).length :=
  ⟨by decide, middleOut_terminates [1, 2] (by decide)⟩
